import Mathlib

/-!
Verification of the build-dependency export subsystem
(`crates/typst-cli/src/deps.rs`).

The development shallowly embeds the source file's functions:
* `munge` — the Make-rule escaping algorithm, over the character sequence
  of the input string;
* `relative_dependencies` / `relativize` — path relativization over paths
  given as component lists, parameterized by the external relative-path
  helper;
* `write_deps_zero`, `write_deps_json`, `write_deps_make`, `write_deps` —
  the three format writers and the dispatcher.  The writers consume the
  already-relativized dependency sequence, exactly as in the source, where
  `relative_dependencies(world)` produces the iterator the writers loop
  over.  Destinations are modelled as the sequence of characters (or
  bytes) written so far; a writer returns the written output together with
  an optional error, so partial writes on error paths are observable.

OS-native strings are modelled, following the design notes of the
specification, as a byte-string abstraction with an explicit fallible
"as text" view: a value is either valid text (a character sequence) or a
non-text byte sequence.
-/

/-- An OS-native string: either valid Unicode text (a character sequence)
or a byte sequence that is not valid Unicode.  Models the standard
library's `OsString` as used by the source: an abstract string with a
fallible `to_str` view and a total `as_encoded_bytes` view. -/
inductive OsString where
  | text (s : List Char)
  | nonText (bytes : List Nat)
deriving DecidableEq, Repr

/-- The fallible "as text" view (`OsStr::to_str`): `some` exactly on valid
Unicode values. -/
def to_str : OsString → Option (List Char)
  | OsString.text s => some s
  | OsString.nonText _ => none

/-- Modelled from the spec: OutputTarget (`crate::args::Output`, whose
definition is not among the provided sources; its two variants are fixed by
the matches in `deps.rs`): a literal file path or standard output. -/
inductive Output where
  | path (p : OsString)
  | stdout
deriving DecidableEq, Repr

/-- Modelled from the spec: the export-format selector
(`crate::args::DepsFormat`, not among the provided sources; its three
variants are fixed by the match in `write_deps`): Structured (Json),
Delimited (Zero), Rule (Make). -/
inductive DepsFormat where
  | Json
  | Zero
  | Make
deriving DecidableEq, Repr

/-- The character sequence of a string literal. -/
def str (s : String) : List Char := s.data

/-- The opening brace character. -/
def lbrace : Char := Char.ofNat 123

/-- The closing brace character. -/
def rbrace : Char := Char.ofNat 125

/- ### The Make-rule escaper `munge` -/

/-- One step of `munge`'s loop body: given the current character and the
running count of consecutive backslashes, the escape prefix pushed before
the character and the new count.  Direct transcription of the `match` in
`munge` (`deps.rs`). -/
def mungeStep (c : Char) (slashes : Nat) : List Char × Nat :=
  if c = '\\' then ([], slashes + 1)
  else if c = '$' then (['$'], 0)
  else if c = ':' then (['\\'], 0)
  else if c = ' ' ∨ c = '\t' then (List.replicate (slashes + 1) '\\', 0)
  else if c = '#' then (['\\'], 0)
  else ([], 0)

/-- The loop of `munge`: processes the characters left to right, carrying
the `slashes` counter; after the escape prefix, the character itself is
always appended. -/
def mungeAux : List Char → Nat → List Char
  | [], _ => []
  | c :: rest, slashes =>
    (mungeStep c slashes).1 ++ c :: mungeAux rest (mungeStep c slashes).2

/-- `munge` from `deps.rs`, over the character sequence of the input. -/
def munge (s : List Char) : List Char := mungeAux s 0

/-- The escape prefix the specification's table assigns to a character,
given the number `n` of consecutive backslashes immediately preceding it:
`$` gets an extra `$`, `:` and `#` get one backslash, space and tab get
`n + 1` backslashes, everything else (including a backslash itself) gets
nothing. -/
def escFor (c : Char) (n : Nat) : List Char :=
  if c = '$' then ['$']
  else if c = ':' then ['\\']
  else if c = ' ' ∨ c = '\t' then List.replicate (n + 1) '\\'
  else if c = '#' then ['\\']
  else []

/-- The number of consecutive backslashes at the end of a character
sequence. -/
def trailingSlashes (l : List Char) : Nat :=
  (l.reverse.takeWhile (fun c => c = '\\')).length

/-- Per-position rephrasing of the specification's escaping table: each
character is emitted as its escape prefix (computed from the run of
backslashes immediately preceding it in the *input*) followed by the
character itself, unchanged.  `seen` is the input prefix already
processed. -/
def mungeSpecAux (seen : List Char) : List Char → List Char
  | [] => []
  | c :: rest => escFor c (trailingSlashes seen) ++ c :: mungeSpecAux (seen ++ [c]) rest

/-- The specification-style description of the escaper, to be compared
with the source's `munge`. -/
def mungeSpec (s : List Char) : List Char := mungeSpecAux [] s

/-- The characters `munge` treats specially. -/
def specials : List Char := ['\\', '$', ':', ' ', '\t', '#']

/- ### FsPath relativization -/

/-- A filesystem path as its list of components, the granularity at which
the source's `strip_prefix` and `join` operate. -/
abbrev FsPath := List String

/-- `FsPath::strip_prefix` componentwise: `some` of the remainder when
`base` is a prefix of the path, `none` otherwise. -/
def strip_pre : FsPath → FsPath → Option FsPath
  | p, [] => some p
  | [], _ :: _ => none
  | a :: p, b :: base => if a = b then strip_pre p base else none

/-- Modelled from the spec: the external relative-path helper
(`pathdiff::diff_paths`, not part of this repository's sources), on two
paths of the same (absolute) flavour given as component lists: strip the
longest common prefix, then one `..` per remaining component of `base`,
followed by the remaining components of `path`; the relative path from
`base` to `path`. -/
def diffComponents : FsPath → FsPath → FsPath
  | p, [] => p
  | [], bs => bs.map (fun _ => "..")
  | a :: p, b :: bs =>
    if a = b then diffComponents p bs
    else List.replicate (bs.length + 1) ".." ++ a :: p

/-- Modelled from the spec: `pathdiff::diff_paths` for same-flavour
absolute paths, which always admits a relative path. -/
def diff_paths (path base : FsPath) : Option FsPath := some (diffComponents path base)

/-- The closure mapped over the dependencies in `relative_dependencies`:
strip the root; on success join the remainder onto `relative_root`, on
failure keep the dependency unchanged. -/
def relativize (relative_root root : FsPath) (dependency : FsPath) : FsPath :=
  match strip_pre dependency root with
  | some x => relative_root ++ x
  | none => dependency

/-- `relative_dependencies` from `deps.rs`, with the compilation's
dependency list, root and current directory passed explicitly and the
external relative-path helper as a parameter: `relative_root` is the
helper's answer with the root itself as fallback, and every dependency is
relativized with it. -/
def relative_dependencies (diff : FsPath → FsPath → Option FsPath)
    (root current_dir : FsPath) (dependencies : List FsPath) : List FsPath :=
  let relative_root := (diff root current_dir).getD root
  dependencies.map (relativize relative_root root)

/- ### The Delimited (Zero) writer -/

/-- UTF-8 encoding of one character, for `OsStr::as_encoded_bytes` on the
valid-text case. -/
def utf8EncodeChar (c : Char) : List Nat :=
  let n := c.toNat
  if n < 128 then [n]
  else if n < 2048 then [192 + n / 64, 128 + n % 64]
  else if n < 65536 then [224 + n / 4096, 128 + n / 64 % 64, 128 + n % 64]
  else [240 + n / 262144, 128 + n / 4096 % 64, 128 + n / 64 % 64, 128 + n % 64]

/-- UTF-8 bytes of a character sequence. -/
def charsToBytes (l : List Char) : List Nat := (l.map utf8EncodeChar).flatten

/-- `OsStr::as_encoded_bytes`: the native byte sequence of an OS string. -/
def encodedBytes : OsString → List Nat
  | OsString.text s => charsToBytes s
  | OsString.nonText bs => bs

/-- `write_deps_zero` from `deps.rs`: for each dependency of the
(relativized) sequence, its encoded bytes followed by one NUL byte. -/
def write_deps_zero (dependencies : List OsString) : List Nat :=
  (dependencies.map (fun dep => encodedBytes dep ++ [0])).flatten

/-- Splitting a byte sequence on NUL bytes (the consumer-side view of the
Delimited format). -/
def splitNul : List Nat → List (List Nat)
  | [] => [[]]
  | b :: rest =>
    if b = 0 then [] :: splitNul rest
    else
      match splitNul rest with
      | [] => [[b]]
      | s :: ss => (b :: s) :: ss

/- ### The Structured (JSON) writer -/

/-- One hexadecimal digit character. -/
def hexDigit (n : Nat) : Char :=
  if n < 10 then Char.ofNat (48 + n) else Char.ofNat (87 + n)

/-- One uppercase hexadecimal digit character. -/
def hexDigitUpper (n : Nat) : Char :=
  if n < 10 then Char.ofNat (48 + n) else Char.ofNat (55 + n)

/-- Modelled from the spec: the JSON string escaping of the external JSON
library used for the Structured wire layout (quote and backslash escaped,
control characters as two-character escapes or `\u00XX`). -/
def escapeChar (c : Char) : List Char :=
  if c = '"' then ['\\', '"']
  else if c = '\\' then ['\\', '\\']
  else if c.toNat = 8 then ['\\', 'b']
  else if c.toNat = 9 then ['\\', 't']
  else if c.toNat = 10 then ['\\', 'n']
  else if c.toNat = 12 then ['\\', 'f']
  else if c.toNat = 13 then ['\\', 'r']
  else if c.toNat < 32 then
    ['\\', 'u', '0', '0', hexDigit (c.toNat / 16), hexDigit (c.toNat % 16)]
  else [c]

/-- A JSON string literal: quote, escaped characters, quote. -/
def jsonStr (s : List Char) : List Char :=
  '"' :: (s.map escapeChar).flatten ++ ['"']

/-- Elements separated by a separator (no leading or trailing separator). -/
def sepBy (sep : List Char) : List (List Char) → List Char
  | [] => []
  | x :: rest => x ++ (rest.map (fun y => sep ++ y)).flatten

/-- A JSON array of string literals. -/
def jsonArr (l : List (List Char)) : List Char :=
  '[' :: sepBy [','] (l.map jsonStr) ++ [']']

/-- Model of the Debug rendering of an OS string (external standard
library), enough for the error messages that name the offending path. -/
def osDebug : OsString → List Char
  | OsString.text s => '"' :: s ++ ['"']
  | OsString.nonText bs =>
    '"' :: (bs.map (fun b =>
      ['\\', 'x', hexDigitUpper (b / 16 % 16), hexDigitUpper (b % 16)])).flatten ++ ['"']

/-- The error produced by `InputSerializer` for a non-text dependency:
`format!("input {dep:?} is not valid utf-8")`. -/
def input_error (dep : OsString) : List Char :=
  str "input " ++ osDebug dep ++ str " is not valid utf-8"

/-- The error produced by `OutputSerializer` for a non-text output path:
`format!("output {path:?} is not valid utf-8")`. -/
def output_error (path : OsString) : List Char :=
  str "output " ++ osDebug path ++ str " is not valid utf-8"

/-- The loop of `InputSerializer::serialize`: serialize each dependency's
text as a sequence element (the serializer writes a comma before every
element but the first), failing on the first non-text dependency; on
success the sequence is closed with `]`.  The accumulator is the byte
stream written to the destination so far. -/
def json_seq_inputs : List OsString → Bool → List Char → List Char × Option (List Char)
  | [], _, buf => (buf ++ [']'], none)
  | d :: rest, first, buf =>
    match to_str d with
    | none => (buf, some (input_error d))
    | some s => json_seq_inputs rest false (buf ++ (if first then [] else [',']) ++ jsonStr s)

/-- The text of an output entry: the path's text for a file path (when
valid), nothing for standard output. -/
def outText : Output → Option (List Char)
  | Output.path p => to_str p
  | Output.stdout => none

/-- The loop of `OutputSerializer::serialize`: `Stdout` entries are
skipped (contributing no element, so the first-element flag does not
advance), non-text paths fail, text paths are serialized as sequence
elements. -/
def json_seq_outputs : List Output → Bool → List Char → List Char × Option (List Char)
  | [], _, buf => (buf ++ [']'], none)
  | o :: rest, first, buf =>
    match o with
    | Output.stdout => json_seq_outputs rest first buf
    | Output.path p =>
      match to_str p with
      | none => (buf, some (output_error p))
      | some s =>
        json_seq_outputs rest false (buf ++ (if first then [] else [',']) ++ jsonStr s)

/-- `write_deps_json` from `deps.rs`: a two-entry map written as
`{"inputs": <inputs>, "outputs": <outputs>}`, streamed to the destination
as serialization proceeds; `outputs` is `null` when no output list was
passed.  Returns the bytes written to the destination together with the
error, if any. -/
def write_deps_json (dependencies : List OsString) (outputs : Option (List Output)) :
    List Char × Option (List Char) :=
  let buf := lbrace :: str "\"inputs\":"
  match json_seq_inputs dependencies true (buf ++ ['[']) with
  | (buf1, some e) => (buf1, some e)
  | (buf1, none) =>
    let buf2 := buf1 ++ str ",\"outputs\":"
    match outputs with
    | none => (buf2 ++ str "null" ++ [rbrace], none)
    | some os =>
      match json_seq_outputs os true (buf2 ++ ['[']) with
      | (buf3, some e) => (buf3, some e)
      | (buf3, none) => (buf3 ++ [rbrace], none)

/- ### The Rule (Make) writer -/

/-- The error raised when a Make-rule target is standard output. -/
def make_stdout_error : List Char :=
  str "make dependencies contain the output path, but the output was stdout"

/-- The target loop of `write_deps_make`: iterate the output list with its
index `i`; fail on `Stdout`; silently skip non-text paths; write a single
space when `i` is nonzero, then the munged path. -/
def make_targets : List Output → Nat → List Char → List Char × Option (List Char)
  | [], _, buf => (buf, none)
  | o :: rest, i, buf =>
    match o with
    | Output.stdout => (buf, some make_stdout_error)
    | Output.path p =>
      match to_str p with
      | none => make_targets rest (i + 1) buf
      | some s =>
        make_targets rest (i + 1) (buf ++ (if i = 0 then [] else [' ']) ++ munge s)

/-- The dependency loop of `write_deps_make`: silently skip non-text
dependencies; write a single space (also before the first) then the munged
path. -/
def make_deps : List OsString → List Char → List Char
  | [], buf => buf
  | d :: rest, buf =>
    match to_str d with
    | none => make_deps rest buf
    | some s => make_deps rest (buf ++ ' ' :: munge s)

/-- `write_deps_make` from `deps.rs`: targets, then `:`, then the
dependencies, then a newline; failing (with the bytes written so far) if a
target is standard output. -/
def write_deps_make (dependencies : List OsString) (outputs : List Output) :
    List Char × Option (List Char) :=
  match make_targets outputs 0 [] with
  | (buf, some e) => (buf, some e)
  | (buf, none) => (make_deps dependencies (buf ++ [':']) ++ ['\n'], none)

/-- The leading space the Make writer produces before the first emitted
target: present exactly when the first list entry is a skipped (non-text)
path and some later entry is emitted. -/
def make_lead : List Output → List Char
  | Output.path p :: rest =>
    match to_str p with
    | none => if rest.filterMap outText = [] then [] else [' ']
    | some _ => []
  | _ => []

/-- `write_deps` from `deps.rs`: the dispatcher.  Json and Make write
character data (UTF-8 encoded here to give all three formats a byte-level
destination); Make runs only when an output list was supplied, otherwise
nothing is written and the call succeeds. -/
def write_deps (format : DepsFormat) (dependencies : List OsString)
    (outputs : Option (List Output)) : List Nat × Option (List Char) :=
  match format with
  | DepsFormat.Json =>
    let r := write_deps_json dependencies outputs
    (charsToBytes r.1, r.2)
  | DepsFormat.Zero => (write_deps_zero dependencies, none)
  | DepsFormat.Make =>
    match outputs with
    | some os =>
      let r := write_deps_make dependencies os
      (charsToBytes r.1, r.2)
    | none => ([], none)

/- ### Lemmas about `munge` -/

theorem mungeStep_fst (c : Char) (n : Nat) : (mungeStep c n).1 = escFor c n := by
  unfold mungeStep escFor
  (repeat' split) <;> simp_all

theorem mungeStep_snd (c : Char) (n : Nat) :
    (mungeStep c n).2 = if c = '\\' then n + 1 else 0 := by
  unfold mungeStep
  (repeat' split) <;> simp_all

theorem trailingSlashes_snoc (l : List Char) (c : Char) :
    trailingSlashes (l ++ [c]) = if c = '\\' then trailingSlashes l + 1 else 0 := by
  unfold trailingSlashes
  rw [List.reverse_append]
  by_cases h : c = '\\' <;> simp [h, List.takeWhile_cons]

theorem mungeAux_eq_specAux (rest : List Char) : ∀ seen : List Char,
    mungeAux rest (trailingSlashes seen) = mungeSpecAux seen rest := by
  induction rest with
  | nil => intro seen; rfl
  | cons c rest ih =>
    intro seen
    simp only [mungeAux, mungeSpecAux, mungeStep_fst, mungeStep_snd]
    rw [← trailingSlashes_snoc seen c, ih (seen ++ [c])]

theorem munge_eq_spec_fn (s : List Char) : munge s = mungeSpec s :=
  mungeAux_eq_specAux s []

theorem mungeAux_replicate_backslash (n : Nat) (rest : List Char) : ∀ s : Nat,
    mungeAux (List.replicate n '\\' ++ rest) s =
      List.replicate n '\\' ++ mungeAux rest (s + n) := by
  induction n with
  | zero => simp
  | succ n ih =>
    intro s
    rw [List.replicate_succ, List.cons_append]
    simp only [mungeAux]
    have h1 : mungeStep '\\' s = ([], s + 1) := rfl
    rw [h1]
    simp only [List.nil_append, List.cons_append]
    rw [ih (s + 1)]
    have : s + 1 + n = s + (n + 1) := by omega
    rw [this]

theorem munge_double_backslashes (n : Nat) :
    munge (List.replicate n '\\' ++ [' ']) = List.replicate (2 * n + 1) '\\' ++ [' '] := by
  unfold munge
  rw [mungeAux_replicate_backslash]
  have h1 : mungeAux [' '] (0 + n) = List.replicate (n + 1) '\\' ++ [' '] := by
    simp only [mungeAux]
    have : mungeStep ' ' (0 + n) = (List.replicate (0 + n + 1) '\\', 0) := rfl
    rw [this]
    simp
  rw [h1, ← List.append_assoc, ← List.replicate_add]
  have : n + (n + 1) = 2 * n + 1 := by omega
  rw [this]

theorem mungeAux_id (s : List Char) (h : ∀ c ∈ s, c ∉ specials) : ∀ k : Nat,
    mungeAux s k = s := by
  induction s with
  | nil => intro k; rfl
  | cons c rest ih =>
    intro k
    have hc := h c (by simp)
    simp only [specials, List.mem_cons, List.not_mem_nil] at hc
    push_neg at hc
    obtain ⟨h1, h2, h3, h4, h5, h6⟩ := hc
    have hstep : mungeStep c k = ([], 0) := by
      simp [mungeStep, h1, h2, h3, h4, h5, h6]
    simp only [mungeAux, hstep, List.nil_append]
    rw [ih (fun c hc => h c (List.mem_cons_of_mem _ hc)) 0]

theorem mungeAux_length (s : List Char) : ∀ k : Nat,
    s.length ≤ (mungeAux s k).length := by
  induction s with
  | nil => intro k; simp [mungeAux]
  | cons c rest ih =>
    intro k
    simp only [mungeAux, List.length_append, List.length_cons]
    have := ih (mungeStep c k).2
    omega

/-- Claim C1: `munge` escapes exactly as specified — it agrees with the
per-position specification `mungeSpec` (each `$` becomes `$$`, each `:`
and `#` gets one preceding backslash, whitespace preceded by `N`
backslashes gets `N + 1` extra backslashes for a total of `2N + 1`, and
every input character is appended unchanged after its prefix); in
particular the run of `n` backslashes before a space becomes `2n + 1`
backslashes, and the spec's concrete examples hold. -/
theorem munge_escapes_spec :
    (∀ s : List Char, munge s = mungeSpec s) ∧
    (∀ n : Nat,
      munge (List.replicate n '\\' ++ [' ']) = List.replicate (2 * n + 1) '\\' ++ [' ']) ∧
    munge (str "a b.typ") = str "a\\ b.typ" ∧
    munge (str "$x") = str "$$x" ∧
    munge (str "a:b") = str "a\\:b" ∧
    munge (str "a#b") = str "a\\#b" ∧
    munge (str "a\\ b") = str "a\\\\\\ b" :=
  ⟨munge_eq_spec_fn, munge_double_backslashes,
    by decide, by decide, by decide, by decide, by decide⟩

/-- Claim C10: `munge` is the identity on strings containing none of the
special characters, and never shortens its input. -/
theorem munge_id_and_length :
    (∀ s : List Char, (∀ c ∈ s, c ∉ specials) → munge s = s) ∧
    (∀ s : List Char, s.length ≤ (munge s).length) :=
  ⟨fun s h => mungeAux_id s h 0, fun s => mungeAux_length s 0⟩

/-- Witness for claim C10 at concrete inputs. -/
theorem munge_id_and_length_witness :
    munge (str "ab.typ") = str "ab.typ" ∧ (str "a b").length ≤ (munge (str "a b")).length :=
  ⟨munge_id_and_length.1 (str "ab.typ") (by decide), munge_id_and_length.2 (str "a b")⟩

/- ### Lemmas about relativization -/

theorem strip_pre_of_isPrefix : ∀ (r d : FsPath), r <+: d →
    strip_pre d r = some (d.drop r.length) := by
  intro r
  induction r with
  | nil => intro d _; simp [strip_pre]
  | cons b base ih =>
    intro d h
    cases d with
    | nil => exact absurd (List.eq_nil_of_prefix_nil h) (by simp)
    | cons a p =>
      rw [List.cons_prefix_cons] at h
      obtain ⟨rfl, h2⟩ := h
      simp [strip_pre, ih p h2]

theorem strip_pre_of_not_isPrefix : ∀ (r d : FsPath), ¬ r <+: d →
    strip_pre d r = none := by
  intro r
  induction r with
  | nil => intro d h; exact absurd (List.nil_prefix) h
  | cons b base ih =>
    intro d h
    cases d with
    | nil => rfl
    | cons a p =>
      rw [List.cons_prefix_cons] at h
      push_neg at h
      by_cases hab : a = b
      · simp [strip_pre, hab, ih p (h hab.symm)]
      · simp only [strip_pre, if_neg hab]

/-- Claim C2: for every dependency `D`, root `R` and working directory
`C`, when `R` is a prefix of `D` the relativizer outputs the relative root
(the external diff of `R` against `C`, falling back to `R` itself when no
relative path exists) joined with the remainder of `D` after stripping
`R`; otherwise it outputs `D` unchanged; `relative_dependencies` applies
this to every dependency of the sequence; and dependency `R/a/b` with root
`R` and working directory `R` relativizes to `a/b`. -/
theorem relative_dependencies_spec :
    (∀ (diff : FsPath → FsPath → Option FsPath) (R C D : FsPath),
      (R <+: D →
        relativize ((diff R C).getD R) R D = ((diff R C).getD R) ++ D.drop R.length) ∧
      (¬ R <+: D → relativize ((diff R C).getD R) R D = D)) ∧
    (∀ (diff : FsPath → FsPath → Option FsPath) (R C : FsPath) (deps : List FsPath),
      relative_dependencies diff R C deps = deps.map (relativize ((diff R C).getD R) R)) ∧
    (∀ (diff : FsPath → FsPath → Option FsPath) (R C D : FsPath), diff R C = none →
      R <+: D → relativize ((diff R C).getD R) R D = R ++ D.drop R.length) ∧
    relative_dependencies diff_paths ["R"] ["R"] [["R", "a", "b"]] = [["a", "b"]] := by
  refine ⟨fun diff R C D => ⟨fun h => ?_, fun h => ?_⟩, fun diff R C deps => rfl,
    fun diff R C D h1 h2 => ?_, by decide⟩
  · simp [relativize, strip_pre_of_isPrefix R D h]
  · simp [relativize, strip_pre_of_not_isPrefix R D h]
  · simp [relativize, strip_pre_of_isPrefix R D h2, h1]

/-- Witness for claim C2 at concrete inputs. -/
theorem relative_dependencies_spec_witness :
    relativize ((diff_paths ["r"] ["c"]).getD ["r"]) ["r"] ["r", "x"] =
      ((diff_paths ["r"] ["c"]).getD ["r"]) ++ (["r", "x"] : FsPath).drop (["r"] : FsPath).length ∧
    relativize ((diff_paths ["r"] ["c"]).getD ["r"]) ["r"] ["q", "x"] = ["q", "x"] :=
  ⟨(relative_dependencies_spec.1 diff_paths ["r"] ["c"] ["r", "x"]).1 ⟨["x"], rfl⟩,
    (relative_dependencies_spec.1 diff_paths ["r"] ["c"] ["q", "x"]).2 (by decide)⟩

/- ### Lemmas about the Delimited (Zero) writer -/

theorem splitNul_chunk : ∀ (d rest : List Nat), 0 ∉ d →
    splitNul (d ++ 0 :: rest) = d :: splitNul rest := by
  intro d
  induction d with
  | nil => intro rest _; simp [splitNul]
  | cons b d ih =>
    intro rest h
    have hb : ¬ b = 0 := by
      intro hb; exact h (by simp [hb])
    have hd : 0 ∉ d := fun hm => h (List.mem_cons_of_mem _ hm)
    simp only [List.cons_append, splitNul, if_neg hb, List.append_eq, ih rest hd]

theorem splitNul_flatten : ∀ deps : List (List Nat), (∀ d ∈ deps, 0 ∉ d) →
    splitNul ((deps.map (fun d => d ++ [0])).flatten) = deps ++ [[]] := by
  intro deps
  induction deps with
  | nil => intro _; rfl
  | cons d rest ih =>
    intro h
    have hd : 0 ∉ d := h d (by simp)
    have hrest : ∀ x ∈ rest, 0 ∉ x := fun x hx => h x (List.mem_cons_of_mem _ hx)
    simp only [List.map_cons, List.flatten_cons, List.append_assoc, List.singleton_append]
    rw [splitNul_chunk d _ hd, ih hrest]
    rfl

/-- Claim C3: the Delimited writer's output is exactly the concatenation
of (path-bytes, NUL) pairs for the relativized dependency sequence, in
iteration order and with no other bytes, so splitting the output on NUL
bytes and dropping the trailing empty segment recovers the byte sequences
of the paths, in order, with no text-validity requirement.  The hypothesis
that no path's encoded bytes contain NUL is what makes the inputs native
paths (OS paths cannot contain an interior NUL byte). -/
theorem write_deps_zero_roundtrip :
    ∀ rdeps : List OsString, (∀ d ∈ rdeps, 0 ∉ encodedBytes d) →
      write_deps_zero rdeps = ((rdeps.map (fun d => encodedBytes d ++ [0])).flatten) ∧
      (splitNul (write_deps_zero rdeps)).dropLast = rdeps.map encodedBytes := by
  intro rdeps h
  refine ⟨rfl, ?_⟩
  have hmap : ∀ d ∈ rdeps.map encodedBytes, 0 ∉ d := by
    intro d hd
    obtain ⟨x, hx, rfl⟩ := List.mem_map.mp hd
    exact h x hx
  have h1 : write_deps_zero rdeps =
      (((rdeps.map encodedBytes).map (fun d => d ++ [0])).flatten) := by
    unfold write_deps_zero
    rw [List.map_map]
    rfl
  rw [h1, splitNul_flatten _ hmap]
  simp

/-- Witness for claim C3 at concrete inputs (one text and one non-text
path). -/
theorem write_deps_zero_roundtrip_witness :
    write_deps_zero [OsString.text (str "ab"), OsString.nonText [255, 1]] =
      (([OsString.text (str "ab"), OsString.nonText [255, 1]].map
        (fun d => encodedBytes d ++ [0])).flatten) ∧
    (splitNul (write_deps_zero [OsString.text (str "ab"), OsString.nonText [255, 1]])).dropLast =
      [OsString.text (str "ab"), OsString.nonText [255, 1]].map encodedBytes :=
  write_deps_zero_roundtrip [OsString.text (str "ab"), OsString.nonText [255, 1]] (by decide)

/- ### Lemmas about the Structured (JSON) writer -/

/-- An output entry the serializers accept without failing: a text path or
standard output (which is skipped). -/
def outOk (o : Output) : Prop :=
  match o with
  | Output.path p => (to_str p).isSome = true
  | Output.stdout => True

instance : DecidablePred outOk := fun o =>
  match o with
  | Output.path p => inferInstanceAs (Decidable ((to_str p).isSome = true))
  | Output.stdout => inferInstanceAs (Decidable True)

theorem first_violation {α : Type} (P : α → Prop) [DecidablePred P] :
    ∀ l : List α, (∀ a ∈ l, P a) ∨
      ∃ pre bad post, l = pre ++ bad :: post ∧ (∀ a ∈ pre, P a) ∧ ¬ P bad := by
  intro l
  induction l with
  | nil => left; simp
  | cons a l ih =>
    by_cases ha : P a
    · rcases ih with h | ⟨pre, bad, post, rfl, hpre, hbad⟩
      · left
        intro x hx
        rcases List.mem_cons.mp hx with rfl | hx
        · exact ha
        · exact h x hx
      · right
        refine ⟨a :: pre, bad, post, rfl, ?_, hbad⟩
        intro x hx
        rcases List.mem_cons.mp hx with rfl | hx
        · exact ha
        · exact hpre x hx
    · right
      exact ⟨[], a, l, rfl, by simp, ha⟩

theorem getLast_app {u v : List Char} {x : Char} (h : v.getLast? = some x) :
    (u ++ v).getLast? = some x := by
  rw [List.getLast?_append, h]
  rfl

theorem jsonStr_getLast (s : List Char) : (jsonStr s).getLast? = some '"' := by
  unfold jsonStr
  rw [show ('"' :: (s.map escapeChar).flatten ++ ['"'] : List Char) =
    ('"' :: (s.map escapeChar).flatten) ++ ['"'] from by simp]
  exact getLast_app (by simp)

theorem json_seq_inputs_ok_false : ∀ (deps : List OsString) (buf : List Char),
    (∀ d ∈ deps, (to_str d).isSome) →
    json_seq_inputs deps false buf =
      (buf ++ ((deps.filterMap to_str).map (fun s => ',' :: jsonStr s)).flatten ++ [']'],
        none) := by
  intro deps
  induction deps with
  | nil => intro buf _; simp [json_seq_inputs]
  | cons d rest ih =>
    intro buf h
    obtain ⟨s, hs⟩ := Option.isSome_iff_exists.mp (h d (by simp))
    rw [show json_seq_inputs (d :: rest) false buf =
      json_seq_inputs rest false (buf ++ [','] ++ jsonStr s) from by
        simp [json_seq_inputs, hs]]
    rw [ih _ (fun x hx => h x (List.mem_cons_of_mem _ hx))]
    simp [List.filterMap_cons, hs, List.append_assoc]

theorem json_seq_inputs_ok_true : ∀ (deps : List OsString) (buf : List Char),
    (∀ d ∈ deps, (to_str d).isSome) →
    json_seq_inputs deps true (buf ++ ['[']) =
      (buf ++ jsonArr (deps.filterMap to_str), none) := by
  intro deps buf h
  cases deps with
  | nil => simp [json_seq_inputs, jsonArr, sepBy]
  | cons d rest =>
    obtain ⟨s, hs⟩ := Option.isSome_iff_exists.mp (h d (by simp))
    rw [show json_seq_inputs (d :: rest) true (buf ++ ['[']) =
      json_seq_inputs rest false (buf ++ ['['] ++ jsonStr s) from by
        simp [json_seq_inputs, hs]]
    rw [json_seq_inputs_ok_false rest _ (fun x hx => h x (List.mem_cons_of_mem _ hx))]
    simp [List.filterMap_cons, hs, jsonArr, sepBy, List.append_assoc, Function.comp]
    rfl

theorem json_seq_inputs_err_false :
    ∀ (pre : List OsString) (bad : OsString) (post : List OsString) (buf : List Char),
    (∀ d ∈ pre, (to_str d).isSome) → to_str bad = none →
    json_seq_inputs (pre ++ bad :: post) false buf =
      (buf ++ ((pre.filterMap to_str).map (fun s => ',' :: jsonStr s)).flatten,
        some (input_error bad)) := by
  intro pre
  induction pre with
  | nil => intro bad post buf _ hbad; simp [json_seq_inputs, hbad]
  | cons d rest ih =>
    intro bad post buf h hbad
    obtain ⟨s, hs⟩ := Option.isSome_iff_exists.mp (h d (by simp))
    rw [List.cons_append,
      show json_seq_inputs (d :: (rest ++ bad :: post)) false buf =
        json_seq_inputs (rest ++ bad :: post) false (buf ++ [','] ++ jsonStr s) from by
          simp [json_seq_inputs, hs]]
    rw [ih bad post _ (fun x hx => h x (List.mem_cons_of_mem _ hx)) hbad]
    simp [List.filterMap_cons, hs, List.append_assoc]

theorem json_seq_inputs_err_true :
    ∀ (pre : List OsString) (bad : OsString) (post : List OsString) (buf : List Char),
    (∀ d ∈ pre, (to_str d).isSome) → to_str bad = none →
    json_seq_inputs (pre ++ bad :: post) true (buf ++ ['[']) =
      (buf ++ '[' :: sepBy [','] ((pre.filterMap to_str).map jsonStr),
        some (input_error bad)) := by
  intro pre bad post buf h hbad
  cases pre with
  | nil => simp [json_seq_inputs, hbad, sepBy]
  | cons d rest =>
    obtain ⟨s, hs⟩ := Option.isSome_iff_exists.mp (h d (by simp))
    rw [List.cons_append,
      show json_seq_inputs (d :: (rest ++ bad :: post)) true (buf ++ ['[']) =
        json_seq_inputs (rest ++ bad :: post) false (buf ++ ['['] ++ jsonStr s) from by
          simp [json_seq_inputs, hs]]
    rw [json_seq_inputs_err_false rest bad post _
      (fun x hx => h x (List.mem_cons_of_mem _ hx)) hbad]
    simp [List.filterMap_cons, hs, sepBy, List.append_assoc, Function.comp]
    rfl

theorem json_seq_outputs_ok_false : ∀ (os : List Output) (buf : List Char),
    (∀ o ∈ os, outOk o) →
    json_seq_outputs os false buf =
      (buf ++ ((os.filterMap outText).map (fun s => ',' :: jsonStr s)).flatten ++ [']'],
        none) := by
  intro os
  induction os with
  | nil => intro buf _; simp [json_seq_outputs]
  | cons o rest ih =>
    intro buf h
    cases o with
    | stdout =>
      rw [show json_seq_outputs (Output.stdout :: rest) false buf =
        json_seq_outputs rest false buf from rfl]
      rw [ih buf (fun x hx => h x (List.mem_cons_of_mem _ hx))]
      simp [List.filterMap_cons, outText]
    | path p =>
      obtain ⟨s, hs⟩ := Option.isSome_iff_exists.mp (h (Output.path p) (by simp))
      rw [show json_seq_outputs (Output.path p :: rest) false buf =
        json_seq_outputs rest false (buf ++ [','] ++ jsonStr s) from by
          simp [json_seq_outputs, hs]]
      rw [ih _ (fun x hx => h x (List.mem_cons_of_mem _ hx))]
      simp [List.filterMap_cons, outText, hs, List.append_assoc]

theorem json_seq_outputs_ok_true : ∀ (os : List Output) (buf : List Char),
    (∀ o ∈ os, outOk o) →
    json_seq_outputs os true (buf ++ ['[']) =
      (buf ++ jsonArr (os.filterMap outText), none) := by
  intro os
  induction os with
  | nil => intro buf _; simp [json_seq_outputs, jsonArr, sepBy]
  | cons o rest ih =>
    intro buf h
    cases o with
    | stdout =>
      rw [show json_seq_outputs (Output.stdout :: rest) true (buf ++ ['[']) =
        json_seq_outputs rest true (buf ++ ['[']) from rfl]
      rw [ih buf (fun x hx => h x (List.mem_cons_of_mem _ hx))]
      simp [List.filterMap_cons, outText]
    | path p =>
      obtain ⟨s, hs⟩ := Option.isSome_iff_exists.mp (h (Output.path p) (by simp))
      rw [show json_seq_outputs (Output.path p :: rest) true (buf ++ ['[']) =
        json_seq_outputs rest false (buf ++ ['['] ++ jsonStr s) from by
          simp [json_seq_outputs, hs]]
      rw [json_seq_outputs_ok_false rest _ (fun x hx => h x (List.mem_cons_of_mem _ hx))]
      simp [List.filterMap_cons, outText, hs, jsonArr, sepBy, List.append_assoc,
        Function.comp]
      rfl

theorem json_seq_outputs_err_false :
    ∀ (opre : List Output) (badp : OsString) (opost : List Output) (buf : List Char),
    (∀ o ∈ opre, outOk o) → to_str badp = none →
    json_seq_outputs (opre ++ Output.path badp :: opost) false buf =
      (buf ++ ((opre.filterMap outText).map (fun s => ',' :: jsonStr s)).flatten,
        some (output_error badp)) := by
  intro opre
  induction opre with
  | nil => intro badp opost buf _ hbad; simp [json_seq_outputs, hbad]
  | cons o rest ih =>
    intro badp opost buf h hbad
    cases o with
    | stdout =>
      rw [List.cons_append,
        show json_seq_outputs (Output.stdout :: (rest ++ Output.path badp :: opost)) false buf =
          json_seq_outputs (rest ++ Output.path badp :: opost) false buf from rfl]
      rw [ih badp opost buf (fun x hx => h x (List.mem_cons_of_mem _ hx)) hbad]
      simp [List.filterMap_cons, outText]
    | path p =>
      obtain ⟨s, hs⟩ := Option.isSome_iff_exists.mp (h (Output.path p) (by simp))
      rw [List.cons_append,
        show json_seq_outputs (Output.path p :: (rest ++ Output.path badp :: opost)) false buf =
          json_seq_outputs (rest ++ Output.path badp :: opost) false (buf ++ [','] ++ jsonStr s)
          from by simp [json_seq_outputs, hs]]
      rw [ih badp opost _ (fun x hx => h x (List.mem_cons_of_mem _ hx)) hbad]
      simp [List.filterMap_cons, outText, hs, List.append_assoc]

theorem json_seq_outputs_err_true :
    ∀ (opre : List Output) (badp : OsString) (opost : List Output) (buf : List Char),
    (∀ o ∈ opre, outOk o) → to_str badp = none →
    json_seq_outputs (opre ++ Output.path badp :: opost) true (buf ++ ['[']) =
      (buf ++ '[' :: sepBy [','] ((opre.filterMap outText).map jsonStr),
        some (output_error badp)) := by
  intro opre
  induction opre with
  | nil => intro badp opost buf _ hbad; simp [json_seq_outputs, hbad, sepBy]
  | cons o rest ih =>
    intro badp opost buf h hbad
    cases o with
    | stdout =>
      rw [List.cons_append,
        show json_seq_outputs (Output.stdout :: (rest ++ Output.path badp :: opost)) true
          (buf ++ ['[']) = json_seq_outputs (rest ++ Output.path badp :: opost) true
          (buf ++ ['[']) from rfl]
      rw [ih badp opost buf (fun x hx => h x (List.mem_cons_of_mem _ hx)) hbad]
      simp [List.filterMap_cons, outText]
    | path p =>
      obtain ⟨s, hs⟩ := Option.isSome_iff_exists.mp (h (Output.path p) (by simp))
      rw [List.cons_append,
        show json_seq_outputs (Output.path p :: (rest ++ Output.path badp :: opost)) true
          (buf ++ ['[']) = json_seq_outputs (rest ++ Output.path badp :: opost) false
          (buf ++ ['['] ++ jsonStr s) from by simp [json_seq_outputs, hs]]
      rw [json_seq_outputs_err_false rest badp opost _
        (fun x hx => h x (List.mem_cons_of_mem _ hx)) hbad]
      simp [List.filterMap_cons, outText, hs, sepBy, List.append_assoc, Function.comp]
      rfl

theorem write_deps_json_ok (deps : List OsString) (outputs : Option (List Output))
    (hdeps : ∀ d ∈ deps, (to_str d).isSome)
    (houts : ∀ os, outputs = some os → ∀ o ∈ os, outOk o) :
    write_deps_json deps outputs =
      (lbrace :: str "\"inputs\":" ++ jsonArr (deps.filterMap to_str) ++
        str ",\"outputs\":" ++
        (match outputs with
         | none => str "null"
         | some os => jsonArr (os.filterMap outText)) ++ [rbrace], none) := by
  simp only [write_deps_json]
  rw [json_seq_inputs_ok_true deps _ hdeps]
  cases outputs with
  | none => simp [List.append_assoc]
  | some os =>
    dsimp only
    rw [json_seq_outputs_ok_true os _ (houts os rfl)]

theorem write_deps_json_err_input (outputs : Option (List Output))
    (pre : List OsString) (bad : OsString) (post : List OsString)
    (hpre : ∀ d ∈ pre, (to_str d).isSome) (hbad : to_str bad = none) :
    write_deps_json (pre ++ bad :: post) outputs =
      (lbrace :: str "\"inputs\":" ++ '[' :: sepBy [','] ((pre.filterMap to_str).map jsonStr),
        some (input_error bad)) := by
  simp only [write_deps_json]
  rw [json_seq_inputs_err_true pre bad post _ hpre hbad]

theorem write_deps_json_err_output (deps : List OsString)
    (opre : List Output) (badp : OsString) (opost : List Output)
    (hdeps : ∀ d ∈ deps, (to_str d).isSome) (hopre : ∀ o ∈ opre, outOk o)
    (hbad : to_str badp = none) :
    write_deps_json deps (some (opre ++ Output.path badp :: opost)) =
      (lbrace :: str "\"inputs\":" ++ jsonArr (deps.filterMap to_str) ++
        str ",\"outputs\":" ++
        '[' :: sepBy [','] ((opre.filterMap outText).map jsonStr),
        some (output_error badp)) := by
  simp only [write_deps_json]
  rw [json_seq_inputs_ok_true deps _ hdeps]
  dsimp only
  rw [json_seq_outputs_err_true opre badp opost _ hopre hbad]

theorem jsonArr_ne_null (l : List (List Char)) : jsonArr l ≠ str "null" := by
  intro h
  have h1 : (jsonArr l).head? = (str "null").head? := by rw [h]
  rw [show (jsonArr l).head? = some '[' from rfl] at h1
  rw [show (str "null").head? = some 'n' from rfl] at h1
  exact absurd h1 (by decide)

theorem flatten_comma_getLast : ∀ (t : List (List Char)) (u : List Char),
    u.getLast? = some '"' →
    (u ++ (List.map (fun y => [','] ++ y) (List.map jsonStr t)).flatten).getLast? =
      some '"' := by
  intro t
  induction t with
  | nil => intro u h; simpa using h
  | cons y t ih =>
    intro u h
    rw [List.map_cons, List.map_cons, List.flatten_cons, ← List.append_assoc]
    exact ih _ (getLast_app (getLast_app (jsonStr_getLast y)))

theorem bracket_sepBy_getLast (strs : List (List Char)) (buf : List Char) :
    (buf ++ '[' :: sepBy [','] (strs.map jsonStr)).getLast? = some '[' ∨
    (buf ++ '[' :: sepBy [','] (strs.map jsonStr)).getLast? = some '"' := by
  cases strs with
  | nil => left; exact getLast_app rfl
  | cons s t =>
    right
    refine getLast_app ?_
    show ('[' :: (jsonStr s ++
      (List.map (fun y => [','] ++ y) (List.map jsonStr t)).flatten)).getLast? = some '"'
    rw [show ('[' :: (jsonStr s ++
        (List.map (fun y => [','] ++ y) (List.map jsonStr t)).flatten) : List Char) =
      ['['] ++ (jsonStr s ++
        (List.map (fun y => [','] ++ y) (List.map jsonStr t)).flatten) from rfl]
    exact getLast_app (flatten_comma_getLast t (jsonStr s) (jsonStr_getLast s))

/-- Claim C4: every successful Structured export emits an object with
exactly the two fields `inputs` and `outputs`, in that order — the
`inputs` value is pinned to exactly the JSON array of the dependency
texts, so nothing else can appear between or around the two fields;
`outputs` is `null` if and only if the caller passed no output list; and
`StandardOutput` entries of a supplied output list are silently omitted
from the `outputs` array, contributing no element at all. -/
theorem write_deps_json_schema :
    ∀ (deps : List OsString) (outputs : Option (List Output)) (out : List Char),
      write_deps_json deps outputs = (out, none) →
      ∃ Y,
        out = lbrace :: str "\"inputs\":" ++ jsonArr (deps.filterMap to_str) ++
          str ",\"outputs\":" ++ Y ++ [rbrace] ∧
        (Y = str "null" ↔ outputs = none) ∧
        (∀ os, outputs = some os → Y = jsonArr (os.filterMap outText)) := by
  intro deps outputs out h
  rcases first_violation (fun d => (to_str d).isSome = true) deps with
    hdeps | ⟨pre, bad, post, rfl, hpre, hbad⟩
  · cases outputs with
    | none =>
      have hw := write_deps_json_ok deps none hdeps (fun os hos => by cases hos)
      rw [hw, Prod.mk.injEq] at h
      refine ⟨str "null", ?_, by simp, fun os hos => by cases hos⟩
      exact h.1.symm
    | some os =>
      rcases first_violation outOk os with hos | ⟨opre, obad, opost, rfl, hopre, hobad⟩
      · have hw := write_deps_json_ok deps (some os) hdeps
          (fun os' hos' => by cases hos'; exact hos)
        rw [hw, Prod.mk.injEq] at h
        refine ⟨jsonArr (os.filterMap outText), ?_,
          ⟨fun hy => absurd hy (jsonArr_ne_null _), fun hn => by cases hn⟩,
          fun os' hos' => by cases hos'; rfl⟩
        exact h.1.symm
      · cases obad with
        | stdout => exact absurd trivial hobad
        | path p =>
          have hp : to_str p = none := by
            cases hcase : to_str p with
            | none => rfl
            | some s => exact absurd (by simp [outOk, hcase]) hobad
          have hw := write_deps_json_err_output deps opre p opost hdeps hopre hp
          rw [hw, Prod.mk.injEq] at h
          exact absurd h.2 (by simp)
  · have hbn : to_str bad = none := by
      cases hcase : to_str bad with
      | none => rfl
      | some s => exact absurd (by simp [hcase]) hbad
    have hw := write_deps_json_err_input outputs pre bad post hpre hbn
    rw [hw, Prod.mk.injEq] at h
    exact absurd h.2 (by simp)

/-- Witness for claim C4 at a concrete input (one text dependency, one
path output and one standard-output entry). -/
theorem write_deps_json_schema_witness :
    ∃ Y,
      (write_deps_json [OsString.text (str "a")]
          (some [Output.path (OsString.text (str "o")), Output.stdout])).1 =
        lbrace :: str "\"inputs\":" ++
          jsonArr ([OsString.text (str "a")].filterMap to_str) ++
          str ",\"outputs\":" ++ Y ++ [rbrace] ∧
      (Y = str "null" ↔
        (some [Output.path (OsString.text (str "o")), Output.stdout] :
          Option (List Output)) = none) ∧
      (∀ os, (some [Output.path (OsString.text (str "o")), Output.stdout] :
          Option (List Output)) = some os → Y = jsonArr (os.filterMap outText)) :=
  write_deps_json_schema [OsString.text (str "a")]
    (some [Output.path (OsString.text (str "o")), Output.stdout]) _ (by decide)

/-- Claim C6: in the Structured format a non-text dependency path fails
the whole export with a descriptive error naming the offending path (its
debug rendering appears in the message), fatally: the destination receives
only what preceded the failure, so no further inputs are serialized; and a
non-text output path fails the same way after the inputs. -/
theorem write_deps_json_nontext_fatal :
    (∀ (outputs : Option (List Output)) (pre : List OsString) (bad : OsString)
        (post : List OsString),
      (∀ d ∈ pre, (to_str d).isSome) → to_str bad = none →
      write_deps_json (pre ++ bad :: post) outputs =
        (lbrace :: str "\"inputs\":" ++
          '[' :: sepBy [','] ((pre.filterMap to_str).map jsonStr),
          some (input_error bad)) ∧
      input_error bad = str "input " ++ osDebug bad ++ str " is not valid utf-8") ∧
    (∀ (deps : List OsString) (opre : List Output) (badp : OsString)
        (opost : List Output),
      (∀ d ∈ deps, (to_str d).isSome) → (∀ o ∈ opre, outOk o) → to_str badp = none →
      write_deps_json deps (some (opre ++ Output.path badp :: opost)) =
        (lbrace :: str "\"inputs\":" ++ jsonArr (deps.filterMap to_str) ++
          str ",\"outputs\":" ++
          '[' :: sepBy [','] ((opre.filterMap outText).map jsonStr),
          some (output_error badp)) ∧
      output_error badp = str "output " ++ osDebug badp ++ str " is not valid utf-8") :=
  ⟨fun outputs pre bad post h1 h2 =>
    ⟨write_deps_json_err_input outputs pre bad post h1 h2, rfl⟩,
   fun deps opre badp opost h1 h2 h3 =>
    ⟨write_deps_json_err_output deps opre badp opost h1 h2 h3, rfl⟩⟩

/-- Witness for claim C6 at concrete inputs: a non-text dependency and a
non-text output path. -/
theorem write_deps_json_nontext_fatal_witness :
    (write_deps_json ([] ++ OsString.nonText [255] :: []) none).2 =
      some (input_error (OsString.nonText [255])) ∧
    (write_deps_json [OsString.text (str "a")]
        (some ([] ++ Output.path (OsString.nonText [254]) :: []))).2 =
      some (output_error (OsString.nonText [254])) :=
  ⟨by rw [(write_deps_json_nontext_fatal.1 none [] (OsString.nonText [255]) []
      (by simp) rfl).1],
   by rw [(write_deps_json_nontext_fatal.2 [OsString.text (str "a")] []
      (OsString.nonText [254]) [] (by decide) (by simp) rfl).1]⟩

/-- Counterexample to claim C9 as stated: a Structured export that fails
on a non-text input encountered partway through the input sequence has
already committed partial document bytes to the destination — the failing
call returns nonempty written output (the document header and the first,
valid input). -/
theorem write_deps_json_commit_cex :
    (write_deps_json [OsString.text (str "a"), OsString.nonText [255]] none).2 =
      some (input_error (OsString.nonText [255])) ∧
    (write_deps_json [OsString.text (str "a"), OsString.nonText [255]] none).1 ≠ [] ∧
    (write_deps_json [OsString.text (str "a"), OsString.nonText [255]] none).1 =
      lbrace :: str "\"inputs\":[\"a\"" := by
  refine ⟨?_, ?_, ?_⟩ <;> decide

/-- Claim C9 (amended): every Structured export either succeeds having
written exactly one complete document (ending in the closing brace, with
the `inputs`/`outputs` shape), or returns an error; on error the bytes
already serialized before the failure remain committed to the
destination, but they never form a complete document — the written output
never ends with the closing brace. -/
theorem write_deps_json_commit_amended :
    ∀ (deps : List OsString) (outputs : Option (List Output)),
      ((write_deps_json deps outputs).2 = none →
        (write_deps_json deps outputs).1.getLast? = some rbrace ∧
        ∃ X Y, (write_deps_json deps outputs).1 =
          lbrace :: str "\"inputs\":" ++ X ++ str ",\"outputs\":" ++ Y ++ [rbrace]) ∧
      (∀ e, (write_deps_json deps outputs).2 = some e →
        (write_deps_json deps outputs).1.getLast? ≠ some rbrace) := by
  intro deps outputs
  rcases first_violation (fun d => (to_str d).isSome = true) deps with
    hdeps | ⟨pre, bad, post, rfl, hpre, hbad⟩
  · cases outputs with
    | none =>
      have hw := write_deps_json_ok deps none hdeps (fun os hos => by cases hos)
      rw [hw]
      constructor
      · intro _
        exact ⟨getLast_app rfl, jsonArr (deps.filterMap to_str), str "null", rfl⟩
      · intro e he
        simp at he
    | some os =>
      rcases first_violation outOk os with hos | ⟨opre, obad, opost, rfl, hopre, hobad⟩
      · have hw := write_deps_json_ok deps (some os) hdeps
          (fun os' hos' => by cases hos'; exact hos)
        rw [hw]
        constructor
        · intro _
          exact ⟨getLast_app rfl, jsonArr (deps.filterMap to_str),
            jsonArr (os.filterMap outText), rfl⟩
        · intro e he
          simp at he
      · cases obad with
        | stdout => exact absurd trivial hobad
        | path p =>
          have hp : to_str p = none := by
            cases hcase : to_str p with
            | none => rfl
            | some s => exact absurd (by simp [outOk, hcase]) hobad
          have hw := write_deps_json_err_output deps opre p opost hdeps hopre hp
          rw [hw]
          constructor
          · intro hnone; simp at hnone
          · intro e _ hcontra
            rcases bracket_sepBy_getLast (opre.filterMap outText)
              (lbrace :: str "\"inputs\":" ++ jsonArr (deps.filterMap to_str) ++
                str ",\"outputs\":") with h1 | h1 <;>
              · rw [show ((lbrace :: str "\"inputs\":" ++ jsonArr (deps.filterMap to_str) ++
                  str ",\"outputs\":" ++
                  '[' :: sepBy [','] ((opre.filterMap outText).map jsonStr),
                  some (output_error p)) : List Char × Option (List Char)).1.getLast? =
                  ((lbrace :: str "\"inputs\":" ++ jsonArr (deps.filterMap to_str) ++
                  str ",\"outputs\":") ++
                  '[' :: sepBy [','] ((opre.filterMap outText).map jsonStr)).getLast?
                  from rfl] at hcontra
                rw [h1] at hcontra
                exact absurd hcontra (by decide)
  · have hbn : to_str bad = none := by
      cases hcase : to_str bad with
      | none => rfl
      | some s => exact absurd (by simp [hcase]) hbad
    have hw := write_deps_json_err_input outputs pre bad post hpre hbn
    rw [hw]
    constructor
    · intro hnone; simp at hnone
    · intro e _ hcontra
      rcases bracket_sepBy_getLast (pre.filterMap to_str)
        (lbrace :: str "\"inputs\":") with h1 | h1 <;>
        · rw [show ((lbrace :: str "\"inputs\":" ++
            '[' :: sepBy [','] ((pre.filterMap to_str).map jsonStr),
            some (input_error bad)) : List Char × Option (List Char)).1.getLast? =
            ((lbrace :: str "\"inputs\":") ++
            '[' :: sepBy [','] ((pre.filterMap to_str).map jsonStr)).getLast?
            from rfl] at hcontra
          rw [h1] at hcontra
          exact absurd hcontra (by decide)

/-- Witness for claim C9 (amended) at a concrete successful export. -/
theorem write_deps_json_commit_amended_witness :
    (write_deps_json [OsString.text (str "a")] none).1.getLast? = some rbrace ∧
    ∃ X Y, (write_deps_json [OsString.text (str "a")] none).1 =
      lbrace :: str "\"inputs\":" ++ X ++ str ",\"outputs\":" ++ Y ++ [rbrace] :=
  (write_deps_json_commit_amended [OsString.text (str "a")] none).1 (by decide)

/- ### Lemmas about the Rule (Make) writer -/

theorem make_deps_eq : ∀ (deps : List OsString) (buf : List Char),
    make_deps deps buf =
      buf ++ ((deps.filterMap to_str).map (fun s => ' ' :: munge s)).flatten := by
  intro deps
  induction deps with
  | nil => intro buf; simp [make_deps]
  | cons d rest ih =>
    intro buf
    cases hd : to_str d with
    | none =>
      rw [show make_deps (d :: rest) buf = make_deps rest buf from by
        simp [make_deps, hd]]
      rw [ih]
      simp [List.filterMap_cons, hd]
    | some s =>
      rw [show make_deps (d :: rest) buf = make_deps rest (buf ++ ' ' :: munge s) from by
        simp [make_deps, hd]]
      rw [ih]
      simp [List.filterMap_cons, hd, List.append_assoc]

theorem make_targets_pos : ∀ (os : List Output) (i : Nat) (buf : List Char),
    i ≠ 0 → Output.stdout ∉ os →
    make_targets os i buf =
      (buf ++ ((os.filterMap outText).map (fun s => ' ' :: munge s)).flatten, none) := by
  intro os
  induction os with
  | nil => intro i buf _ _; simp [make_targets]
  | cons o rest ih =>
    intro i buf hi hs
    cases o with
    | stdout => exact absurd (by simp) hs
    | path p =>
      have hrest : Output.stdout ∉ rest := fun hm => hs (List.mem_cons_of_mem _ hm)
      cases hp : to_str p with
      | none =>
        rw [show make_targets (Output.path p :: rest) i buf =
          make_targets rest (i + 1) buf from by simp [make_targets, hp]]
        rw [ih (i + 1) buf (by omega) hrest]
        simp [List.filterMap_cons, outText, hp]
      | some s =>
        rw [show make_targets (Output.path p :: rest) i buf =
          make_targets rest (i + 1) (buf ++ [' '] ++ munge s) from by
            simp [make_targets, hp, if_neg hi]]
        rw [ih (i + 1) _ (by omega) hrest]
        simp [List.filterMap_cons, outText, hp, List.append_assoc]

theorem make_targets_zero (os : List Output) (h : Output.stdout ∉ os) :
    make_targets os 0 [] =
      (make_lead os ++ sepBy [' '] ((os.filterMap outText).map munge), none) := by
  cases os with
  | nil => simp [make_targets, make_lead, sepBy]
  | cons o rest =>
    cases o with
    | stdout => exact absurd (by simp) h
    | path p =>
      have hrest : Output.stdout ∉ rest := fun hm => h (List.mem_cons_of_mem _ hm)
      cases hp : to_str p with
      | none =>
        rw [show make_targets (Output.path p :: rest) 0 [] =
          make_targets rest 1 [] from by simp [make_targets, hp]]
        rw [make_targets_pos rest 1 [] (by omega) hrest]
        cases hrf : rest.filterMap outText with
        | nil => simp [make_lead, hp, hrf, sepBy, List.filterMap_cons, outText]
        | cons a t =>
          simp [make_lead, hp, hrf, sepBy, List.filterMap_cons, outText,
            List.map_map, Function.comp]
          rfl
      | some s =>
        rw [show make_targets (Output.path p :: rest) 0 [] =
          make_targets rest 1 ([] ++ [] ++ munge s) from by simp [make_targets, hp]]
        rw [make_targets_pos rest 1 _ (by omega) hrest]
        simp [make_lead, hp, sepBy, List.filterMap_cons, outText, List.map_map,
          Function.comp, List.append_assoc]
        rfl

theorem make_targets_stdout :
    ∀ (pre rest : List Output) (i : Nat) (buf : List Char), Output.stdout ∉ pre →
    make_targets (pre ++ Output.stdout :: rest) i buf =
      ((make_targets pre i buf).1, some make_stdout_error) := by
  intro pre
  induction pre with
  | nil => intro rest i buf _; rfl
  | cons o pre ih =>
    intro rest i buf h
    cases o with
    | stdout => exact absurd (by simp) h
    | path p =>
      have hpre : Output.stdout ∉ pre := fun hm => h (List.mem_cons_of_mem _ hm)
      cases hp : to_str p with
      | none =>
        rw [List.cons_append]
        rw [show make_targets (Output.path p :: (pre ++ Output.stdout :: rest)) i buf =
          make_targets (pre ++ Output.stdout :: rest) (i + 1) buf from by
            simp [make_targets, hp]]
        rw [ih rest (i + 1) buf hpre]
        rw [show make_targets (Output.path p :: pre) i buf =
          make_targets pre (i + 1) buf from by simp [make_targets, hp]]
      | some s =>
        rw [List.cons_append]
        rw [show make_targets (Output.path p :: (pre ++ Output.stdout :: rest)) i buf =
          make_targets (pre ++ Output.stdout :: rest) (i + 1)
            (buf ++ (if i = 0 then [] else [' ']) ++ munge s) from by
              simp [make_targets, hp]]
        rw [ih rest (i + 1) _ hpre]
        rw [show make_targets (Output.path p :: pre) i buf =
          make_targets pre (i + 1) (buf ++ (if i = 0 then [] else [' ']) ++ munge s)
          from by simp [make_targets, hp]]

theorem write_deps_make_ok (deps : List OsString) (os : List Output)
    (h : Output.stdout ∉ os) :
    write_deps_make deps os =
      (make_lead os ++ sepBy [' '] ((os.filterMap outText).map munge) ++
        ':' :: ((deps.filterMap to_str).map (fun s => ' ' :: munge s)).flatten ++ ['\n'],
        none) := by
  unfold write_deps_make
  rw [make_targets_zero os h]
  dsimp only
  rw [make_deps_eq]
  simp [List.append_assoc]

/-- Counterexample to claim C5 as stated: in the Rule format, when the
first output entry is skipped as non-text, the first emitted target IS
preceded by a leading space (the separator is keyed to the entry's
position in the supplied list, not to emitted targets). -/
theorem write_deps_make_space_cex :
    write_deps_make []
        [Output.path (OsString.nonText [255]), Output.path (OsString.text (str "a"))] =
      (str " a:\n", none) ∧
    (write_deps_make []
        [Output.path (OsString.nonText [255]),
          Output.path (OsString.text (str "a"))]).1.head? = some ' ' := by
  refine ⟨?_, ?_⟩ <;> decide

/-- Claim C5 (amended): in the Rule format a single separating space is
written immediately before an emitted target exactly when the target's
position in the supplied output list is nonzero; hence successive emitted
targets are single-space separated with no doubled spaces, and the first
emitted target has no leading space when the list's first entry is itself
emitted — but when the first entry is skipped as non-text and a later
target is emitted, the target list begins with one leading space. -/
theorem write_deps_make_spacing :
    ∀ (deps : List OsString) (os : List Output), Output.stdout ∉ os →
      write_deps_make deps os =
        (make_lead os ++ sepBy [' '] ((os.filterMap outText).map munge) ++
          ':' :: ((deps.filterMap to_str).map (fun s => ' ' :: munge s)).flatten ++ ['\n'],
          none) ∧
      (∀ p rest, os = Output.path p :: rest → (to_str p).isSome → make_lead os = []) ∧
      (∀ p rest, os = Output.path p :: rest → to_str p = none →
        rest.filterMap outText ≠ [] → make_lead os = [' ']) := by
  intro deps os h
  refine ⟨write_deps_make_ok deps os h, ?_, ?_⟩
  · intro p rest hos hp
    obtain ⟨s, hs⟩ := Option.isSome_iff_exists.mp hp
    subst hos
    simp [make_lead, hs]
  · intro p rest hos hp hne
    subst hos
    simp [make_lead, hp, hne]

/-- Witness for claim C5 (amended) at a concrete input: first target
emitted, second skipped, third emitted. -/
theorem write_deps_make_spacing_witness :
    write_deps_make [OsString.text (str "d")]
        [Output.path (OsString.text (str "t")), Output.path (OsString.nonText [255]),
          Output.path (OsString.text (str "u"))] =
      (make_lead [Output.path (OsString.text (str "t")), Output.path (OsString.nonText [255]),
          Output.path (OsString.text (str "u"))] ++
        sepBy [' ']
          (([Output.path (OsString.text (str "t")), Output.path (OsString.nonText [255]),
            Output.path (OsString.text (str "u"))].filterMap outText).map munge) ++
        ':' :: (([OsString.text (str "d")].filterMap to_str).map
          (fun s => ' ' :: munge s)).flatten ++ ['\n'],
        none) :=
  (write_deps_make_spacing [OsString.text (str "d")]
    [Output.path (OsString.text (str "t")), Output.path (OsString.nonText [255]),
      Output.path (OsString.text (str "u"))] (by decide)).1

/-- Claim C7: in the Rule format an output list containing a
standard-output entry fails fatally — the error is raised when the entry
is reached during target iteration, so the destination has received
exactly the serialized targets preceding that entry and nothing more:
neither the `:` separator, nor any dependency, nor the terminating newline
is appended. -/
theorem write_deps_make_stdout_fatal :
    ∀ (deps : List OsString) (pre rest : List Output), Output.stdout ∉ pre →
      write_deps_make deps (pre ++ Output.stdout :: rest) =
        ((make_targets pre 0 []).1, some make_stdout_error) ∧
      (make_targets pre 0 []).1 =
        make_lead pre ++ sepBy [' '] ((pre.filterMap outText).map munge) := by
  intro deps pre rest h
  constructor
  · unfold write_deps_make
    rw [make_targets_stdout pre rest 0 [] h]
  · rw [make_targets_zero pre h]

/-- Witness for claim C7 at a concrete input. -/
theorem write_deps_make_stdout_fatal_witness :
    write_deps_make [OsString.text (str "d")]
        ([Output.path (OsString.text (str "t"))] ++ Output.stdout :: []) =
      ((make_targets [Output.path (OsString.text (str "t"))] 0 []).1,
        some make_stdout_error) ∧
    (make_targets [Output.path (OsString.text (str "t"))] 0 []).1 =
      make_lead [Output.path (OsString.text (str "t"))] ++
        sepBy [' ']
          (([Output.path (OsString.text (str "t"))].filterMap outText).map munge) :=
  write_deps_make_stdout_fatal [OsString.text (str "d")]
    [Output.path (OsString.text (str "t"))] [] (by decide)

theorem make_lead_of_no_targets (os : List Output) (hstd : Output.stdout ∉ os)
    (hfm : os.filterMap outText = []) : make_lead os = [] := by
  cases os with
  | nil => rfl
  | cons o rest =>
    cases o with
    | stdout => exact absurd (by simp) hstd
    | path p =>
      cases hp : to_str p with
      | none =>
        have hrest : rest.filterMap outText = [] := by
          rw [List.filterMap_cons] at hfm
          simpa [outText, hp] using hfm
        simp [make_lead, hp, hrest]
      | some s =>
        rw [List.filterMap_cons] at hfm
        simp [outText, hp] at hfm

/-- Counterexample to claim C8 as stated: with Rule format and a supplied
output list from which zero targets survive (here: the empty list), a rule
line IS still emitted — the output is nonempty, beginning directly with
`:`. -/
theorem write_deps_rule_empty_cex :
    write_deps DepsFormat.Make [OsString.text (str "a")] (some []) =
      (charsToBytes (str ": a\n"), none) ∧
    charsToBytes (str ": a\n") ≠ [] := by
  refine ⟨?_, ?_⟩ <;> decide

/-- Claim C8 (amended): when the caller requests Rule format without
supplying an output list, nothing is written and the call succeeds (a
no-op, not an error); but when an output list IS supplied and zero targets
survive filtering, a rule line is still emitted — it begins directly with
`:` followed by the dependency list and the newline. -/
theorem write_deps_rule_dispatch :
    (∀ deps : List OsString, write_deps DepsFormat.Make deps none = ([], none)) ∧
    (∀ (deps : List OsString) (os : List Output), Output.stdout ∉ os →
      os.filterMap outText = [] →
      write_deps DepsFormat.Make deps (some os) =
        (charsToBytes
          (':' :: ((deps.filterMap to_str).map (fun s => ' ' :: munge s)).flatten ++ ['\n']),
          none)) := by
  constructor
  · intro deps; rfl
  · intro deps os hstd hfm
    simp only [write_deps]
    rw [write_deps_make_ok deps os hstd]
    rw [hfm, make_lead_of_no_targets os hstd hfm]
    simp [sepBy]

/-- Witness for claim C8 (amended) at concrete inputs. -/
theorem write_deps_rule_dispatch_witness :
    write_deps DepsFormat.Make [OsString.text (str "a")] none = ([], none) ∧
    write_deps DepsFormat.Make [OsString.text (str "a")]
        (some [Output.path (OsString.nonText [255])]) =
      (charsToBytes
        (':' :: (([OsString.text (str "a")].filterMap to_str).map
          (fun s => ' ' :: munge s)).flatten ++ ['\n']),
        none) :=
  ⟨write_deps_rule_dispatch.1 [OsString.text (str "a")],
    write_deps_rule_dispatch.2 [OsString.text (str "a")]
      [Output.path (OsString.nonText [255])] (by decide) (by decide)⟩
